import Mathlib

/-!
Verification of the portfolio combination engine of `portfolio_optimizer.py`.

The embedding works over exact rationals: every quantity the Python code
computes with floats is modelled in ℚ, except the three metrics that involve
a square root (daily-return standard deviation, annualized volatility and
the Sharpe ratio), which are real-valued functions of the rational data.
Division by zero in ℚ yields 0 (Lean's convention); the places where the
Python code would instead produce NaN/inf are degenerate inputs (a curve
value of exactly 0) and are noted at the affected theorems.

The filesystem read of `load_portfolio_history` is modelled by an
environment.  The full model, `FsEnv`, maps a (ticker, strategy_type)
pair to an `Artifact`: `missing` (no `portfolio_history.csv`; the
`os.path.exists` check fails and the function returns None), `malformed`
(the file exists but `pd.read_csv`, the `Date` column access or the
`Portfolio_Value` access raises — an uncaught exception that aborts the
whole caller, since neither `combine_portfolios` nor the optimizer sweep
has a try/except), or a well-formed `table`.  `Env`, mapping a strategy
to an optional curve, is the restriction of `FsEnv` to environments with
no malformed artifact (`combineCurveFs_restriction` below proves the two
models agree there); the claims about well-formed data are stated over
`Env`, and the claim about failure propagation over `FsEnv`.  The code
signals every non-exception failure of `combine_portfolios` by returning
None after printing a distinguishing message; the embedding keeps the
distinct exit sites apart with an error type, one constructor per exit
site, plus constructors for the uncaught exceptions and for the explicit
length check in `main`'s custom-weights path.
-/

namespace PortfolioOpt

/-- A (ticker, strategy_type) pair: one equity-curve source. -/
abbrev Strat := String × String

/-- A portfolio-history artifact: the (Date, Portfolio_Value) rows, dates
ascending as produced by the backtest. -/
abbrev Curve := List (Nat × ℚ)

/-- What the results directory holds for one strategy: nothing, a file
that raises when read or indexed (unparsable CSV, missing `Date` or
`Portfolio_Value` field), or a well-formed history. -/
inductive Artifact where
  | missing
  | malformed
  | table (c : Curve)
  deriving DecidableEq

/-- The full storage model of `load_portfolio_history`: one artifact per
strategy. -/
abbrev FsEnv := Strat → Artifact

/-- The storage restricted to environments with no malformed artifact:
`none` models the missing `portfolio_history.csv` (the function returns
None).  `combineCurveFs_restriction` proves this restriction exact. -/
abbrev Env := Strat → Option Curve

/-- The dates of a curve (its index). -/
def curveDates (c : Curve) : List Nat := c.map Prod.fst

/-- `df.loc[d, 'Portfolio_Value']`: the value of a curve at a date.  The
default 0 is never reached when `d` is a common date of the curves. -/
def valAt : Curve → Nat → ℚ
  | [], _ => 0
  | (d', x) :: rest, d => if d = d' then x else valAt rest d

/-- The distinct exit sites of `combine_portfolios` (the code prints a
distinguishing warning and returns None at each: `invalidWeights`,
`notFound`, `noCommonDates`, `noData`), plus the uncaught Python
exceptions — `indexError` from `weights[i]` when the weight list is too
short, and `malformed` from `pd.read_csv` / `df['Date']` /
`Portfolio_Value` access on an artifact that exists but cannot be parsed —
and `lengthMismatch` for the explicit length check in `main`. -/
inductive CombineError where
  | invalidWeights
  | notFound
  | noCommonDates
  | indexError
  | noData
  | lengthMismatch
  | malformed
  deriving DecidableEq

/-- Whether the failure is an uncaught Python exception, which propagates
out of `combine_portfolios` and aborts the caller (the optimizer sweep has
no try/except), rather than a `return None` that the sweep's `if metrics:`
treats as a skipped candidate.  `lengthMismatch` is `main`'s own printed
check and never reaches the sweep. -/
def CombineError.aborts : CombineError → Bool
  | .indexError => true
  | .malformed => true
  | _ => false

/-- The loading loop of `combine_portfolios` (lines 81-86): load every
strategy's history; any missing file makes the whole combination fail. -/
def loadAll (env : Env) : List Strat → Option (List Curve)
  | [] => some []
  | s :: rest =>
    match env s with
    | none => none
    | some c => (loadAll env rest).map (c :: ·)

/-- The curves `loadAll` yields when every strategy is present. -/
def loadedList (env : Env) (l : List Strat) : List Curve :=
  l.map (fun st => (env st).getD [])

/-- Lines 89-91: `portfolios[0].index` intersected with every other index.
For ascending, duplicate-free date axes (the spec's EquityCurve invariant)
the pandas intersection is the first index filtered by membership in the
others. -/
def commonDates (c : Curve) (rest : List Curve) : List Nat :=
  (curveDates c).filter (fun d => rest.all (fun q => (curveDates q).contains d))

/-- Lines 76-107 of `combine_portfolios`, up to the blended curve:
weight-sum check, loading, date intersection, rebasing each curve so its
first common-date value becomes the initial capital, and the weighted sum.
`weights[i]` is `(curves.zip weights)`: a weight list shorter than the
strategy list raises IndexError in the Python loop (modelled by
`.indexError` once the loop is reached), and a longer one is silently
truncated by the zip, exactly as the Python loop never reads past
`len(portfolios)`. -/
def combineCurve (env : Env) (strategies : List Strat) (weights : List ℚ)
    (initial_capital : ℚ) : Except CombineError Curve :=
  if |weights.sum - 1| > 1/100 then .error .invalidWeights
  else
    match loadAll env strategies with
    | none => .error .notFound
    | some [] => .error .indexError
    | some (p :: ps) =>
      match commonDates p ps with
      | [] => .error .noCommonDates
      | d0 :: ds =>
        if weights.length < strategies.length then .error .indexError
        else .ok ((d0 :: ds).map (fun d =>
          (d, (((p :: ps).zip weights).map
                (fun cw => valAt cw.1 d / valAt cw.1 d0 * initial_capital * cw.2)).sum)))

/-- The rational core of the metrics record of
`calculate_portfolio_metrics`: the three sqrt-valued entries (std_dev,
sharpe_ratio, volatility) are real-valued functions of this data, below. -/
structure MetricsQ where
  final_value : ℚ
  total_return : ℚ
  /-- The square of `daily_returns.std()` (sample standard deviation,
  denominator n-1); for fewer than two returns the rational junk value is 0
  where pandas yields NaN, which the `std_dev > 0` branch treats alike. -/
  variance : ℚ
  max_drawdown : ℚ
  deriving DecidableEq

/-- Line 38: `pct_change().dropna() * 100` — percentage change between
consecutive values, the undefined first entry dropped. -/
def dailyReturns (v : List ℚ) : List ℚ :=
  (v.zip v.tail).map (fun p => (p.2 - p.1) / p.1 * 100)

/-- `Series.std()` squared: sum of squared deviations over n - 1. -/
def sampleVar (l : List ℚ) : ℚ :=
  let n : ℚ := l.length
  let mean := l.sum / n
  ((l.map (fun x => (x - mean) ^ 2)).sum) / (n - 1)

/-- `cummax` continued with running maximum `m`. -/
def cummaxFrom (m : ℚ) : List ℚ → List ℚ
  | [] => []
  | x :: xs => max m x :: cummaxFrom (max m x) xs

/-- Line 42: `combined_portfolio_value.cummax()`. -/
def cummax : List ℚ → List ℚ
  | [] => []
  | x :: xs => x :: cummaxFrom x xs

/-- Line 43: `(combined_portfolio_value - peak) / peak * 100`. -/
def drawdowns (v : List ℚ) : List ℚ :=
  (v.zip (cummax v)).map (fun p => (p.1 - p.2) / p.2 * 100)

/-- Lines 29-60, rational part: None for an empty curve, otherwise the
final value, total return, (squared) daily-return deviation and the
minimum drawdown. -/
def calculate_portfolio_metrics (v : List ℚ) (initial_capital : ℚ) :
    Option MetricsQ :=
  if v.isEmpty then none
  else some
    { final_value := v.getLastD 0
      total_return := (v.getLastD 0 - initial_capital) / initial_capital * 100
      variance := sampleVar (dailyReturns v)
      max_drawdown := ((drawdowns v).min?).getD 0 }

/-- Line 39: `daily_returns.std()` as a real number. -/
noncomputable def std_devR (m : MetricsQ) : ℝ := Real.sqrt (m.variance : ℝ)

/-- Line 59: `std_dev * np.sqrt(252)` (also line 48's `annualized_std`). -/
noncomputable def volatilityR (m : MetricsQ) : ℝ := std_devR m * Real.sqrt 252

open Classical in
/-- Lines 46-51: `(total_return - 2.0) / annualized_std` when the daily
standard deviation is positive, else 0. -/
noncomputable def sharpeR (m : MetricsQ) : ℝ :=
  if 0 < std_devR m then ((m.total_return : ℝ) - 2) / volatilityR m else 0

/-- The dict `combine_portfolios` returns: the metrics plus the attached
strategies, weights and blended series (lines 111-114). -/
structure PortfolioResult where
  metrics : MetricsQ
  strategies : List Strat
  weights : List ℚ
  portfolio_series : Curve
  deriving DecidableEq

/-- `combine_portfolios` (lines 63-116): the blended curve fed to the
metrics calculator, the originating strategies and weights attached. -/
def combine_portfolios (env : Env) (strategies : List Strat)
    (weights : List ℚ) (initial_capital : ℚ) :
    Except CombineError PortfolioResult :=
  match combineCurve env strategies weights initial_capital with
  | .error e => .error e
  | .ok curve =>
    match calculate_portfolio_metrics (curve.map Prod.snd) initial_capital with
    | none => .error .noData
    | some m => .ok ⟨m, strategies, weights, curve⟩

/-- `np.arange(start, stop, step)`: `ceil ((stop - start) / step)` grid
points from `start`. -/
def arangeQ (start stop step : ℚ) : List ℚ :=
  (List.range (⌈(stop - start) / step⌉).toNat).map (fun k => start + k * step)

/-- Line 137: `np.arange(0, 1.0 + weight_step, weight_step)`. -/
def weight_range (step : ℚ) : List ℚ := arangeQ 0 (1 + step) step

/-- `itertools.product(xs, repeat := n)` in product order (first
coordinate varies slowest). -/
def tuples (xs : List ℚ) : Nat → List (List ℚ)
  | 0 => [[]]
  | n + 1 => xs.flatMap (fun x => (tuples xs n).map (x :: ·))

/-- Lines 141-142: the grid tuples whose raw sum is within 0.01 of 1. -/
def rawCandidates (n : Nat) (step : ℚ) : List (List ℚ) :=
  (tuples (weight_range step) n).filter (fun w => |w.sum - 1| < 1/100)

/-- Lines 144-145: each kept tuple renormalized by its own sum. -/
def weight_combinations (n : Nat) (step : ℚ) : List (List ℚ) :=
  (rawCandidates n step).map (fun w => w.map (· / w.sum))

/-- Lines 150-157: the sweep — every candidate evaluated, the failing ones
dropped, in enumeration order. -/
def optimize_results (env : Env) (strategies : List Strat)
    (initial_capital step : ℚ) : List PortfolioResult :=
  (weight_combinations strategies.length step).filterMap
    (fun w => (combine_portfolios env strategies w initial_capital).toOption)

/-- A computable comparator deciding `sharpeR m₁ ≤ sharpeR m₂` on the
rational data (the square root is eliminated by sign analysis and
squaring); `sharpeLeB_iff` below proves the correspondence. -/
def sharpeLeB (m₁ m₂ : MetricsQ) : Bool :=
  let a₁ := m₁.total_return - 2
  let a₂ := m₂.total_return - 2
  if m₁.variance ≤ 0 then
    if m₂.variance ≤ 0 then true else decide (0 ≤ a₂)
  else if m₂.variance ≤ 0 then decide (a₁ ≤ 0)
  else if a₁ ≤ 0 then
    if 0 ≤ a₂ then true else decide (a₂ ^ 2 * m₁.variance ≤ a₁ ^ 2 * m₂.variance)
  else
    if a₂ ≤ 0 then false else decide (a₁ ^ 2 * m₂.variance ≤ a₂ ^ 2 * m₁.variance)

/-- "a should not come after b" for line 160's
`sort(key = sharpe_ratio, reverse = True)`. -/
def sharpeDescB (r₁ r₂ : PortfolioResult) : Bool :=
  sharpeLeB r₂.metrics r₁.metrics

/-- Stable insertion of `x` into `l`: `x` goes before the first element it
may precede.  With `sortD` this is extensionally the unique stable sort,
hence the behaviour of Python's `list.sort`. -/
def insertD {α : Type} (le : α → α → Bool) (x : α) : List α → List α
  | [] => [x]
  | y :: ys => if le x y then x :: y :: ys else y :: insertD le x ys

/-- Stable sort by `le` (Python `list.sort` semantics). -/
def sortD {α : Type} (le : α → α → Bool) : List α → List α
  | [] => []
  | x :: xs => insertD le x (sortD le xs)

/-- `optimize_portfolio` (lines 119-162): the sweep's results sorted by
Sharpe ratio descending (stable) and truncated to the first `top_n`. -/
def optimize_portfolio (env : Env) (strategies : List Strat)
    (initial_capital step : ℚ) (top_n : Nat) : List PortfolioResult :=
  (sortD sharpeDescB (optimize_results env strategies initial_capital step)).take top_n

/-- Lines 202-211 of `main`: the custom-weights invocation checks the
weight count against the strategy count before calling
`combine_portfolios`. -/
def main_custom_weights (env : Env) (strategies : List Strat)
    (weights : List ℚ) (initial_capital : ℚ) :
    Except CombineError PortfolioResult :=
  if weights.length ≠ strategies.length then .error .lengthMismatch
  else combine_portfolios env strategies weights initial_capital

/-- The loading loop over the full storage model: a missing artifact makes
`load_portfolio_history` return None (so the combination fails with the
NotFound warning), while a malformed one raises inside the loader — the
loop dies at the first offending strategy, in order. -/
def loadAllFs (env : FsEnv) : List Strat → Except CombineError (List Curve)
  | [] => .ok []
  | s :: rest =>
    match env s with
    | .missing => .error .notFound
    | .malformed => .error .malformed
    | .table c => (loadAllFs env rest).map (c :: ·)

/-- `combine_portfolios` up to the blended curve, over the full storage
model: identical to `combineCurve` except that loading can also raise on
a malformed artifact. -/
def combineCurveFs (env : FsEnv) (strategies : List Strat) (weights : List ℚ)
    (initial_capital : ℚ) : Except CombineError Curve :=
  if |weights.sum - 1| > 1/100 then .error .invalidWeights
  else
    match loadAllFs env strategies with
    | .error e => .error e
    | .ok [] => .error .indexError
    | .ok (p :: ps) =>
      match commonDates p ps with
      | [] => .error .noCommonDates
      | d0 :: ds =>
        if weights.length < strategies.length then .error .indexError
        else .ok ((d0 :: ds).map (fun d =>
          (d, (((p :: ps).zip weights).map
                (fun cw => valAt cw.1 d / valAt cw.1 d0 * initial_capital * cw.2)).sum)))

/-- `combine_portfolios` over the full storage model. -/
def combine_portfoliosFs (env : FsEnv) (strategies : List Strat)
    (weights : List ℚ) (initial_capital : ℚ) :
    Except CombineError PortfolioResult :=
  match combineCurveFs env strategies weights initial_capital with
  | .error e => .error e
  | .ok curve =>
    match calculate_portfolio_metrics (curve.map Prod.snd) initial_capital with
    | none => .error .noData
    | some m => .ok ⟨m, strategies, weights, curve⟩

/-- The sweep loop of `optimize_portfolio` (lines 150-157) over the full
storage model: a candidate whose combine call returns None is skipped (the
`if metrics:` test), but an uncaught exception propagates — the loop dies,
every result collected so far is lost, and the caller sees the exception. -/
def sweepGo (env : FsEnv) (strategies : List Strat) (initial_capital : ℚ) :
    List (List ℚ) → Except CombineError (List PortfolioResult)
  | [] => .ok []
  | w :: rest =>
    match combine_portfoliosFs env strategies w initial_capital with
    | .ok m => (sweepGo env strategies initial_capital rest).map (m :: ·)
    | .error e =>
      if e.aborts then .error e else sweepGo env strategies initial_capital rest

/-- The optimizer sweep over the full storage model: every grid candidate
evaluated in enumeration order, None-returns dropped, exceptions fatal. -/
def optimize_sweep (env : FsEnv) (strategies : List Strat)
    (initial_capital step : ℚ) : Except CombineError (List PortfolioResult) :=
  sweepGo env strategies initial_capital (weight_combinations strategies.length step)

/-- `optimize_portfolio` over the full storage model: the sweep's results
sorted by Sharpe ratio descending (stable) and truncated, unless an
exception aborted the sweep. -/
def optimize_portfolioFs (env : FsEnv) (strategies : List Strat)
    (initial_capital step : ℚ) (top_n : Nat) :
    Except CombineError (List PortfolioResult) :=
  (optimize_sweep env strategies initial_capital step).map
    (fun res => (sortD sharpeDescB res).take top_n)

/-- The projection of a storage with no malformed artifact onto the
optional-curve model. -/
def toOptionEnv (env : FsEnv) : Env := fun st =>
  match env st with
  | .table c => some c
  | _ => none

theorem insertD_perm {α : Type} (le : α → α → Bool) (x : α) (l : List α) :
    (insertD le x l).Perm (x :: l) := by
  induction l with
  | nil => exact List.Perm.refl _
  | cons y ys ih =>
    rw [insertD]
    by_cases h : le x y = true
    · rw [if_pos h]
    · rw [if_neg h]
      exact ((ih.cons y).trans (List.Perm.swap x y ys))

theorem sortD_perm {α : Type} (le : α → α → Bool) (l : List α) :
    (sortD le l).Perm l := by
  induction l with
  | nil => exact List.Perm.refl _
  | cons x xs ih =>
    rw [sortD]
    exact (insertD_perm le x (sortD le xs)).trans (ih.cons x)

theorem insertD_chain' {α : Type} (le : α → α → Bool)
    (htot : ∀ a b, le a b = true ∨ le b a = true) (x : α) (l : List α)
    (hl : List.Chain' (fun a b => le a b = true) l) :
    List.Chain' (fun a b => le a b = true) (insertD le x l) := by
  induction l with
  | nil => simp [insertD]
  | cons y ys ih =>
    rw [insertD]
    by_cases h : le x y = true
    · rw [if_pos h]
      exact hl.cons h
    · rw [if_neg h]
      have hyx : le y x = true := (htot x y).resolve_left h
      have hys : List.Chain' (fun a b => le a b = true) ys := hl.tail
      have hins := ih hys
      cases ys with
      | nil => simpa [insertD] using hyx
      | cons z zs =>
        rw [insertD] at hins ⊢
        by_cases h2 : le x z = true
        · rw [if_pos h2] at hins ⊢
          exact hins.cons hyx
        · rw [if_neg h2] at hins ⊢
          exact hins.cons (List.chain'_cons.mp hl).1

theorem sortD_chain' {α : Type} (le : α → α → Bool)
    (htot : ∀ a b, le a b = true ∨ le b a = true) (l : List α) :
    List.Chain' (fun a b => le a b = true) (sortD le l) := by
  induction l with
  | nil => simp [sortD]
  | cons x xs ih =>
    rw [sortD]
    exact insertD_chain' le htot x (sortD le xs) ih

theorem insertD_filter {α : Type} (le : α → α → Bool) (p : α → Bool) (x : α)
    (hp : ∀ b, p x = true → p b = true → le x b = true) (l : List α) :
    (insertD le x l).filter p = if p x then x :: l.filter p else l.filter p := by
  induction l with
  | nil => by_cases h : p x = true <;> simp [insertD, List.filter, h]
  | cons y ys ih =>
    rw [insertD]
    by_cases h : le x y = true
    · rw [if_pos h]
      by_cases hx : p x = true <;> simp [List.filter_cons, hx]
    · rw [if_neg h]
      by_cases hx : p x = true
      · have hy : ¬ p y = true := fun hy => h (hp y hx hy)
        simp only [List.filter_cons, ih, hx, if_true]
        simp [hy]
      · simp only [List.filter_cons, ih, hx, if_false]
        simp

theorem sortD_filter {α : Type} (le : α → α → Bool) (p : α → Bool)
    (hp : ∀ a b, p a = true → p b = true → le a b = true) (l : List α) :
    (sortD le l).filter p = l.filter p := by
  induction l with
  | nil => rfl
  | cons x xs ih =>
    rw [sortD, insertD_filter le p x (fun b hx hb => hp x b hx hb) (sortD le xs), ih]
    by_cases hx : p x = true <;> simp [List.filter_cons, hx]




theorem qle_iff (a b : ℚ) : a ≤ b ↔ (a : ℝ) ≤ (b : ℝ) := by exact_mod_cast Iff.rfl

theorem sharpeR_of_nonpos {m : MetricsQ} (h : m.variance ≤ 0) : sharpeR m = 0 := by
  have hz : Real.sqrt (m.variance : ℝ) = 0 := Real.sqrt_eq_zero'.mpr (by exact_mod_cast h)
  have hns : ¬ 0 < std_devR m := by rw [std_devR, hz]; exact lt_irrefl 0
  rw [sharpeR, if_neg hns]

theorem sharpeR_of_pos {m : MetricsQ} (h : 0 < m.variance) :
    sharpeR m = ((m.total_return : ℝ) - 2) / (Real.sqrt (m.variance : ℝ) * Real.sqrt 252) := by
  have hs : 0 < std_devR m := by
    rw [std_devR]; exact Real.sqrt_pos.mpr (by exact_mod_cast h)
  rw [sharpeR, if_pos hs, volatilityR, std_devR]

theorem sharpeLeB_iff (m₁ m₂ : MetricsQ) :
    sharpeLeB m₁ m₂ = true ↔ sharpeR m₁ ≤ sharpeR m₂ := by
  have h252 : (0:ℝ) < Real.sqrt 252 := Real.sqrt_pos.mpr (by norm_num)
  rw [sharpeLeB]
  by_cases h1 : m₁.variance ≤ 0
  · rw [if_pos h1, sharpeR_of_nonpos h1]
    by_cases h2 : m₂.variance ≤ 0
    · simp [if_pos h2, sharpeR_of_nonpos h2]
    · have h2' : 0 < m₂.variance := lt_of_not_le h2
      have hs2 : (0:ℝ) < Real.sqrt (m₂.variance : ℝ) := Real.sqrt_pos.mpr (by exact_mod_cast h2')
      rw [if_neg h2, sharpeR_of_pos h2', decide_eq_true_eq,
        le_div_iff₀ (mul_pos hs2 h252), zero_mul, sub_nonneg, qle_iff]
      push_cast
      constructor <;> intro h <;> linarith
  · have h1' : 0 < m₁.variance := lt_of_not_le h1
    have hs1 : (0:ℝ) < Real.sqrt (m₁.variance : ℝ) := Real.sqrt_pos.mpr (by exact_mod_cast h1')
    rw [if_neg h1, sharpeR_of_pos h1']
    by_cases h2 : m₂.variance ≤ 0
    · rw [if_pos h2, sharpeR_of_nonpos h2, decide_eq_true_eq,
        div_le_iff₀ (mul_pos hs1 h252), zero_mul, sub_nonpos, qle_iff]
      push_cast
      constructor <;> intro h <;> linarith
    · have h2' : 0 < m₂.variance := lt_of_not_le h2
      have hs2 : (0:ℝ) < Real.sqrt (m₂.variance : ℝ) := Real.sqrt_pos.mpr (by exact_mod_cast h2')
      rw [if_neg h2, sharpeR_of_pos h2',
        div_le_div_iff₀ (mul_pos hs1 h252) (mul_pos hs2 h252)]
      set s₁ : ℝ := Real.sqrt (m₁.variance : ℝ) with hs₁def
      set s₂ : ℝ := Real.sqrt (m₂.variance : ℝ) with hs₂def
      have hq1 : s₁ ^ 2 = (m₁.variance : ℝ) := Real.sq_sqrt (by exact_mod_cast h1'.le)
      have hq2 : s₂ ^ 2 = (m₂.variance : ℝ) := Real.sq_sqrt (by exact_mod_cast h2'.le)
      have hcross : (((m₁.total_return : ℝ) - 2) * (s₂ * Real.sqrt 252) ≤
          ((m₂.total_return : ℝ) - 2) * (s₁ * Real.sqrt 252)) ↔
          ((m₁.total_return : ℝ) - 2) * s₂ ≤ ((m₂.total_return : ℝ) - 2) * s₁ := by
        rw [show ((m₁.total_return : ℝ) - 2) * (s₂ * Real.sqrt 252) =
              ((m₁.total_return : ℝ) - 2) * s₂ * Real.sqrt 252 by ring,
            show ((m₂.total_return : ℝ) - 2) * (s₁ * Real.sqrt 252) =
              ((m₂.total_return : ℝ) - 2) * s₁ * Real.sqrt 252 by ring]
        exact mul_le_mul_right h252
      rw [hcross]
      by_cases hA1 : m₁.total_return - 2 ≤ 0
      · have hA1' : (m₁.total_return : ℝ) - 2 ≤ 0 := by
          have := (qle_iff _ _).mp hA1; push_cast at this; linarith
        rw [if_pos hA1]
        by_cases hA2 : 0 ≤ m₂.total_return - 2
        · have hA2' : (0:ℝ) ≤ (m₂.total_return : ℝ) - 2 := by
            have := (qle_iff _ _).mp hA2; push_cast at this; linarith
          simp only [if_pos hA2, true_iff]
          exact le_trans (mul_nonpos_of_nonpos_of_nonneg hA1' hs2.le)
            (mul_nonneg hA2' hs1.le)
        · have hA2' : (m₂.total_return : ℝ) - 2 < 0 := by
            have hnot : ¬ ((0:ℚ):ℝ) ≤ ((m₂.total_return - 2 : ℚ) : ℝ) :=
              fun hc => hA2 ((qle_iff _ _).mpr hc)
            have := lt_of_not_le hnot
            push_cast at this; linarith
          rw [if_neg hA2, decide_eq_true_eq, qle_iff]
          have cast_eq : (((m₂.total_return - 2) ^ 2 * m₁.variance : ℚ) : ℝ) =
              (-(((m₂.total_return : ℝ) - 2) * s₁)) ^ 2 := by
            push_cast; rw [show (-(((m₂.total_return : ℝ) - 2) * s₁)) ^ 2 =
              ((m₂.total_return : ℝ) - 2) ^ 2 * s₁ ^ 2 by ring, hq1]
          have cast_eq2 : (((m₁.total_return - 2) ^ 2 * m₂.variance : ℚ) : ℝ) =
              (-(((m₁.total_return : ℝ) - 2) * s₂)) ^ 2 := by
            push_cast; rw [show (-(((m₁.total_return : ℝ) - 2) * s₂)) ^ 2 =
              ((m₁.total_return : ℝ) - 2) ^ 2 * s₂ ^ 2 by ring, hq2]
          rw [cast_eq, cast_eq2,
            pow_le_pow_iff_left₀
              (by nlinarith [mul_nonpos_of_nonpos_of_nonneg hA2'.le hs1.le])
              (by nlinarith [mul_nonpos_of_nonpos_of_nonneg hA1' hs2.le]) two_ne_zero]
          constructor <;> intro h <;> linarith
      · have hA1' : (0:ℝ) < (m₁.total_return : ℝ) - 2 := by
          have hnot : ¬ ((m₁.total_return - 2 : ℚ):ℝ) ≤ ((0:ℚ):ℝ) :=
            fun hc => hA1 ((qle_iff _ _).mpr hc)
          have := lt_of_not_le hnot
          push_cast at this; linarith
        rw [if_neg hA1]
        by_cases hA2 : m₂.total_return - 2 ≤ 0
        · have hA2' : (m₂.total_return : ℝ) - 2 ≤ 0 := by
            have := (qle_iff _ _).mp hA2; push_cast at this; linarith
          simp only [if_pos hA2, Bool.false_eq_true, false_iff, not_le]
          exact lt_of_le_of_lt (mul_nonpos_of_nonpos_of_nonneg hA2' hs1.le)
            (mul_pos hA1' hs2)
        · have hA2' : (0:ℝ) < (m₂.total_return : ℝ) - 2 := by
            have hnot : ¬ ((m₂.total_return - 2 : ℚ):ℝ) ≤ ((0:ℚ):ℝ) :=
              fun hc => hA2 ((qle_iff _ _).mpr hc)
            have := lt_of_not_le hnot
            push_cast at this; linarith
          rw [if_neg hA2, decide_eq_true_eq, qle_iff]
          have cast_eq : (((m₁.total_return - 2) ^ 2 * m₂.variance : ℚ) : ℝ) =
              (((m₁.total_return : ℝ) - 2) * s₂) ^ 2 := by
            push_cast; rw [show ((((m₁.total_return : ℝ) - 2) * s₂)) ^ 2 =
              ((m₁.total_return : ℝ) - 2) ^ 2 * s₂ ^ 2 by ring, hq2]
          have cast_eq2 : (((m₂.total_return - 2) ^ 2 * m₁.variance : ℚ) : ℝ) =
              (((m₂.total_return : ℝ) - 2) * s₁) ^ 2 := by
            push_cast; rw [show ((((m₂.total_return : ℝ) - 2) * s₁)) ^ 2 =
              ((m₂.total_return : ℝ) - 2) ^ 2 * s₁ ^ 2 by ring, hq1]
          rw [cast_eq, cast_eq2,
            pow_le_pow_iff_left₀ (mul_nonneg hA1'.le hs2.le) (mul_nonneg hA2'.le hs1.le)
              two_ne_zero]



theorem loadAll_eq_some {env : Env} {l : List Strat}
    (h : ∀ st ∈ l, (env st).isSome) : loadAll env l = some (loadedList env l) := by
  induction l with
  | nil => rfl
  | cons s rest ih =>
    have hs := h s (List.mem_cons_self s rest)
    rw [loadAll]
    cases hevs : env s with
    | none => rw [hevs] at hs; simp at hs
    | some c =>
      rw [ih (fun st hst => h st (List.mem_cons_of_mem s hst))]
      simp [loadedList, hevs]

theorem loadAll_eq_none {env : Env} {l : List Strat}
    (h : ∃ st ∈ l, env st = none) : loadAll env l = none := by
  induction l with
  | nil => simp at h
  | cons s rest ih =>
    rw [loadAll]
    rcases h with ⟨st, hmem, hnone⟩
    rcases List.mem_cons.mp hmem with rfl | hmem'
    · rw [hnone]
    · cases hevs : env s with
      | none => rfl
      | some c => rw [ih ⟨st, hmem', hnone⟩]; rfl

theorem loadAll_length {env : Env} {l : List Strat} {cs : List Curve}
    (h : loadAll env l = some cs) : cs.length = l.length := by
  induction l generalizing cs with
  | nil => rw [loadAll] at h; cases h; rfl
  | cons s rest ih =>
    rw [loadAll] at h
    cases hevs : env s with
    | none => rw [hevs] at h; cases h
    | some c =>
      rw [hevs] at h
      cases hrest : loadAll env rest with
      | none => rw [hrest] at h; cases h
      | some cs' =>
        rw [hrest] at h
        cases h
        simp [ih hrest]

theorem combineCurve_ne_invalidWeights {env : Env} {s : List Strat} {w : List ℚ} {C : ℚ}
    (h : ¬ |w.sum - 1| > 1/100) :
    combineCurve env s w C ≠ .error .invalidWeights := by
  rw [combineCurve, if_neg h]
  cases loadAll env s with
  | none => simp
  | some cs =>
    cases cs with
    | nil => simp
    | cons p ps =>
      simp only
      cases commonDates p ps with
      | nil => simp
      | cons d0 ds =>
        simp only
        by_cases hl : w.length < s.length
        · rw [if_pos hl]; simp
        · rw [if_neg hl]; simp

theorem zip_eq_zip_take {α β : Type} (l : List α) (l' : List β) :
    l.zip l' = l.zip (l'.take l.length) := by
  induction l generalizing l' with
  | nil => simp
  | cons x xs ih =>
    cases l' with
    | nil => simp
    | cons y ys => simp [List.zip_cons_cons, ih ys]

theorem blend_head_value (curves : List Curve) (w : List ℚ) (C : ℚ) (d0 : Nat)
    (hnz : ∀ c ∈ curves, valAt c d0 ≠ 0) :
    ((curves.zip w).map (fun cw => valAt cw.1 d0 / valAt cw.1 d0 * C * cw.2)).sum
      = (w.take curves.length).sum * C := by
  induction curves generalizing w with
  | nil => simp
  | cons c cs ih =>
    cases w with
    | nil => simp
    | cons wt ws =>
      rw [List.zip_cons_cons, List.map_cons, List.sum_cons,
        ih ws (fun c' hc' => hnz c' (List.mem_cons_of_mem c hc')),
        div_self (hnz c (List.mem_cons_self c cs)), one_mul]
      simp [List.sum_cons]
      ring

theorem combineCurve_ok_shape {env : Env} {s0 : Strat} {srest : List Strat}
    {w : List ℚ} {C : ℚ}
    (hsum : ¬ |w.sum - 1| > 1/100)
    (hload : ∀ st ∈ s0 :: srest, (env st).isSome)
    (hlen : (s0 :: srest).length ≤ w.length)
    (hcomm : commonDates ((env s0).getD []) (loadedList env srest) ≠ []) :
    combineCurve env (s0 :: srest) w C =
      .ok ((commonDates ((env s0).getD []) (loadedList env srest)).map (fun d =>
        (d, ((((env s0).getD [] :: loadedList env srest).zip w).map
              (fun cw => valAt cw.1 d / valAt cw.1
                ((commonDates ((env s0).getD []) (loadedList env srest)).headD 0)
                * C * cw.2)).sum))) := by
  rw [combineCurve, if_neg hsum, loadAll_eq_some hload]
  simp only [loadedList, List.map_cons]
  cases hc : commonDates ((env s0).getD []) (List.map (fun st => (env st).getD []) srest) with
  | nil => exact absurd hc (by simpa [loadedList] using hcomm)
  | cons d0 ds =>
    simp only
    rw [if_neg (not_lt.mpr (by simpa using hlen))]
    simp [loadedList]


theorem max?_cons_foldl (x : ℚ) (xs : List ℚ) : (x :: xs).max? = some (xs.foldl max x) := rfl

/-- The claim's running peak: the maximum of the first `i + 1` values
(cumulative maximum at index `i`).  Stated from the spec sentence, to be
compared with the code-shaped `cummax`. -/
def peakAt (v : List ℚ) (i : Nat) : ℚ := ((v.take (i + 1)).max?).getD 0

/-- The claim's drawdown at index `i`:
`(value - running peak) / running peak * 100`. -/
def ddAt (v : List ℚ) (i : Nat) : ℚ := (v.getD i 0 - peakAt v i) / peakAt v i * 100

theorem cummaxFrom_length (m : ℚ) (xs : List ℚ) :
    (cummaxFrom m xs).length = xs.length := by
  induction xs generalizing m with
  | nil => rfl
  | cons x xs ih => rw [cummaxFrom]; simp [ih]

theorem cummax_length (v : List ℚ) : (cummax v).length = v.length := by
  cases v with
  | nil => rfl
  | cons x xs => rw [cummax]; simp [cummaxFrom_length]

theorem cummaxFrom_getD (m : ℚ) (xs : List ℚ) (i : Nat) (h : i < xs.length) :
    (cummaxFrom m xs).getD i 0 = (xs.take (i + 1)).foldl max m := by
  induction xs generalizing m i with
  | nil => simp at h
  | cons x xs ih =>
    rw [cummaxFrom]
    cases i with
    | zero => simp
    | succ j =>
      have hj : j < xs.length := by simpa using h
      simp only [List.getD_cons_succ, List.take_succ_cons, List.foldl_cons]
      exact ih (max m x) j hj

theorem cummax_getD (v : List ℚ) (i : Nat) (h : i < v.length) :
    (cummax v).getD i 0 = peakAt v i := by
  cases v with
  | nil => simp at h
  | cons x xs =>
    rw [cummax, peakAt, List.take_succ_cons, max?_cons_foldl, Option.getD_some]
    cases i with
    | zero => simp
    | succ j =>
      have hj : j < xs.length := by simpa using h
      simp only [List.getD_cons_succ, List.take_succ_cons, List.foldl_cons]
      rw [cummaxFrom_getD x xs j hj]

theorem drawdowns_length (v : List ℚ) : (drawdowns v).length = v.length := by
  rw [drawdowns]
  simp [cummax_length]

theorem drawdowns_getD (v : List ℚ) (i : Nat) (h : i < v.length) :
    (drawdowns v).getD i 0 = ddAt v i := by
  have hz : i < (v.zip (cummax v)).length := by
    simp [List.length_zip, cummax_length]; omega
  rw [drawdowns, List.getD_eq_getElem _ _ (by simpa [drawdowns] using hz),
    List.getElem_map, List.getElem_zip, ddAt]
  rw [← List.getD_eq_getElem v 0 (by omega), ← List.getD_eq_getElem (cummax v) 0
    (by rw [cummax_length]; omega), cummax_getD v i h]

theorem min?_spec {l : List ℚ} {a : ℚ} (h : l.min? = some a) :
    a ∈ l ∧ ∀ b ∈ l, a ≤ b := by
  haveI : Std.Antisymm (fun x1 x2 : ℚ => x1 ≤ x2) := ⟨fun {_ _} h h' => le_antisymm h h'⟩
  rw [List.min?_eq_some_iff] at h
  · exact h
  · exact fun a => le_refl a
  · exact fun a b => min_choice a b
  · exact fun a b c => le_min_iff

theorem min?_isSome_of_ne_nil {l : List ℚ} (h : l ≠ []) : ∃ a, l.min? = some a := by
  cases l with
  | nil => exact absurd rfl h
  | cons x xs => exact ⟨_, List.min?_cons⟩


theorem chain'_eq_zip_tail {v : List ℚ} (h : List.Chain' (· = ·) v) :
    ∀ p ∈ v.zip v.tail, p.1 = p.2 := by
  induction v with
  | nil => simp
  | cons x xs ih =>
    cases xs with
    | nil => simp
    | cons y ys =>
      intro p hp
      rcases List.mem_cons.mp (by simpa using hp) with rfl | hp'
      · exact (List.chain'_cons.mp h).1
      · exact ih (List.chain'_cons.mp h).2 p hp'

theorem dailyReturns_flat {v : List ℚ} (h : List.Chain' (· = ·) v) :
    ∀ x ∈ dailyReturns v, x = 0 := by
  intro x hx
  rw [dailyReturns] at hx
  rcases List.mem_map.mp hx with ⟨p, hp, rfl⟩
  rw [chain'_eq_zip_tail h p hp]
  simp

theorem sampleVar_of_all_zero {l : List ℚ} (h : ∀ x ∈ l, x = 0) : sampleVar l = 0 := by
  rw [sampleVar]
  have hsum : l.sum = 0 := List.sum_eq_zero h
  simp only [hsum, zero_div]
  have : (l.map (fun x => (x - 0) ^ 2)).sum = 0 :=
    List.sum_eq_zero (by
      intro y hy
      rcases List.mem_map.mp hy with ⟨x, hx, rfl⟩
      rw [h x hx]; ring)
  simp only [this]
  rw [zero_div]

theorem mem_optimize_results {env : Env} {s : List Strat} {C step : ℚ}
    {r : PortfolioResult} :
    r ∈ optimize_results env s C step ↔
      ∃ w ∈ weight_combinations s.length step,
        combine_portfolios env s w C = .ok r := by
  rw [optimize_results, List.mem_filterMap]
  constructor
  · rintro ⟨w, hw, hok⟩
    refine ⟨w, hw, ?_⟩
    cases hcp : combine_portfolios env s w C with
    | error e => rw [hcp] at hok; simp [Except.toOption] at hok
    | ok r' => rw [hcp] at hok; simp [Except.toOption] at hok; rw [hok]
  · rintro ⟨w, hw, hok⟩
    exact ⟨w, hw, by rw [hok]; rfl⟩

theorem combine_portfolios_ok_fields {env : Env} {s : List Strat} {w : List ℚ}
    {C : ℚ} {r : PortfolioResult}
    (h : combine_portfolios env s w C = .ok r) :
    r.strategies = s ∧ r.weights = w := by
  unfold combine_portfolios at h
  split at h
  · cases h
  · rename_i curve hcv
    split at h
    · cases h
    · cases h
      exact ⟨rfl, rfl⟩

theorem length_filterMap_countP {α β : Type} (f : α → Option β) (l : List α) :
    (l.filterMap f).length = l.countP (fun a => (f a).isSome) := by
  induction l with
  | nil => rfl
  | cons x xs ih =>
    rw [List.filterMap_cons, List.countP_cons]
    cases hfx : f x with
    | none => simp [hfx, ih]
    | some b => simp [hfx, ih]


theorem mem_commonDates {c : Curve} {cs : List Curve} {d : Nat} :
    d ∈ commonDates c cs ↔ d ∈ curveDates c ∧ ∀ q ∈ cs, d ∈ curveDates q := by
  simp only [commonDates, List.mem_filter, List.all_eq_true]
  constructor
  · rintro ⟨h1, h2⟩
    exact ⟨h1, fun q hq => List.elem_iff.mp (h2 q hq)⟩
  · rintro ⟨h1, h2⟩
    exact ⟨h1, fun q hq => List.elem_iff.mpr (h2 q hq)⟩

theorem commonDates_chain' {c : Curve} {cs : List Curve}
    (h : List.Chain' (· < ·) (curveDates c)) :
    List.Chain' (· < ·) (commonDates c cs) :=
  h.sublist (List.filter_sublist _)

theorem commonDates_perm {c₁ c₂ : Curve} {cs₁ cs₂ : List Curve}
    (hperm : (c₁ :: cs₁).Perm (c₂ :: cs₂))
    (h₁ : List.Chain' (· < ·) (curveDates c₁))
    (h₂ : List.Chain' (· < ·) (curveDates c₂)) :
    commonDates c₁ cs₁ = commonDates c₂ cs₂ := by
  haveI : IsAntisymm Nat (· < ·) := ⟨fun a b h h' => absurd h (Nat.lt_asymm h')⟩
  have hmem : ∀ d, d ∈ commonDates c₁ cs₁ ↔ d ∈ commonDates c₂ cs₂ := by
    intro d
    rw [mem_commonDates, mem_commonDates]
    constructor
    · rintro ⟨ha, hb⟩
      have hall : ∀ q ∈ c₁ :: cs₁, d ∈ curveDates q := List.forall_mem_cons.mpr ⟨ha, hb⟩
      exact List.forall_mem_cons.mp (fun q hq => hall q (hperm.mem_iff.mpr hq))
    · rintro ⟨ha, hb⟩
      have hall : ∀ q ∈ c₂ :: cs₂, d ∈ curveDates q := List.forall_mem_cons.mpr ⟨ha, hb⟩
      exact List.forall_mem_cons.mp (fun q hq => hall q (hperm.mem_iff.mp hq))
  have hs₁ : List.Pairwise (· < ·) (commonDates c₁ cs₁) :=
    List.chain'_iff_pairwise.mp (commonDates_chain' h₁)
  have hs₂ : List.Pairwise (· < ·) (commonDates c₂ cs₂) :=
    List.chain'_iff_pairwise.mp (commonDates_chain' h₂)
  have hnd₁ : (commonDates c₁ cs₁).Nodup := hs₁.imp Nat.ne_of_lt
  have hnd₂ : (commonDates c₂ cs₂).Nodup := hs₂.imp Nat.ne_of_lt
  exact List.eq_of_perm_of_sorted
    ((List.perm_ext_iff_of_nodup hnd₁ hnd₂).mpr hmem) hs₁ hs₂

theorem blend_sum_perm (env : Env) (C : ℚ) {p₁ p₂ : List (Strat × ℚ)}
    (hperm : p₁.Perm p₂) (d d0 : Nat) :
    (((p₁.map (fun q => (env q.1).getD [])).zip (p₁.map Prod.snd)).map
        (fun cw => valAt cw.1 d / valAt cw.1 d0 * C * cw.2)).sum =
    (((p₂.map (fun q => (env q.1).getD [])).zip (p₂.map Prod.snd)).map
        (fun cw => valAt cw.1 d / valAt cw.1 d0 * C * cw.2)).sum := by
  rw [List.zip_map', List.zip_map', List.map_map, List.map_map]
  exact (hperm.map _).sum_eq

theorem combineCurve_perm (env : Env) (C : ℚ) {p₁ p₂ : List (Strat × ℚ)}
    (hperm : p₁.Perm p₂)
    (hsorted : ∀ q ∈ p₁, List.Chain' (fun u v : Nat × ℚ => u.1 < v.1) ((env q.1).getD [])) :
    combineCurve env (p₁.map Prod.fst) (p₁.map Prod.snd) C =
      combineCurve env (p₂.map Prod.fst) (p₂.map Prod.snd) C := by
  have hsums : (p₁.map Prod.snd).sum = (p₂.map Prod.snd).sum := (hperm.map Prod.snd).sum_eq
  have hlen : p₁.length = p₂.length := hperm.length_eq
  rw [combineCurve, combineCurve, hsums]
  by_cases hw : |(p₂.map Prod.snd).sum - 1| > 1/100
  · rw [if_pos hw, if_pos hw]
  · rw [if_neg hw, if_neg hw]
    by_cases hl : ∀ st ∈ p₁.map Prod.fst, (env st).isSome
    · have hl₂ : ∀ st ∈ p₂.map Prod.fst, (env st).isSome :=
        fun st hst => hl st ((hperm.map Prod.fst).mem_iff.mpr hst)
      rw [loadAll_eq_some hl, loadAll_eq_some hl₂]
      have hll : ∀ (p : List (Strat × ℚ)), loadedList env (p.map Prod.fst) =
          p.map (fun q => (env q.1).getD []) := by
        intro p; rw [loadedList, List.map_map]; rfl
      rw [hll, hll]
      cases hp₁ : p₁ with
      | nil =>
        rw [hp₁] at hperm
        rw [List.Perm.eq_nil hperm.symm]
      | cons q₁ t₁ =>
        cases hp₂ : p₂ with
        | nil =>
          rw [hp₁, hp₂] at hperm
          exact absurd hperm.symm (by simp)
        | cons q₂ t₂ =>
          rw [hp₁, hp₂] at hperm hsums hlen
          rw [hp₁] at hsorted
          simp only [List.map_cons]
          have hchain : ∀ q ∈ q₁ :: t₁, List.Chain' (· < ·)
              (curveDates ((env q.1).getD [])) := by
            intro q hq
            have := hsorted q hq
            rw [curveDates]
            exact List.chain'_map_of_chain' Prod.fst (fun a b h => h) this
          have hchain₂ : ∀ q ∈ q₂ :: t₂, List.Chain' (· < ·)
              (curveDates ((env q.1).getD [])) :=
            fun q hq => hchain q (hperm.mem_iff.mpr hq)
          have hcd : commonDates ((env q₁.1).getD []) (t₁.map (fun q => (env q.1).getD []))
              = commonDates ((env q₂.1).getD []) (t₂.map (fun q => (env q.1).getD [])) := by
            apply commonDates_perm
            · have : ((q₁ :: t₁).map (fun q => (env q.1).getD [])).Perm
                  ((q₂ :: t₂).map (fun q => (env q.1).getD [])) := hperm.map _
              simpa using this
            · exact hchain q₁ (List.mem_cons_self _ _)
            · exact hchain₂ q₂ (List.mem_cons_self _ _)
          rw [← hcd]
          cases hc : commonDates ((env q₁.1).getD []) (t₁.map (fun q => (env q.1).getD [])) with
          | nil => rfl
          | cons d0 ds =>
            have hlen' : t₁.length = t₂.length := by simpa using hlen
            simp only [List.length_map, List.length_cons, hlen']
            by_cases hlt : t₂.length + 1 < t₂.length + 1
            · exact absurd hlt (lt_irrefl _)
            · rw [if_neg hlt, if_neg hlt]
              have hsum_eq : ∀ d : Nat,
                  (((((env q₁.1).getD []) :: t₁.map (fun q => (env q.1).getD [])).zip
                      (q₁.2 :: t₁.map Prod.snd)).map
                    (fun cw => valAt cw.1 d / valAt cw.1 d0 * C * cw.2)).sum =
                  (((((env q₂.1).getD []) :: t₂.map (fun q => (env q.1).getD [])).zip
                      (q₂.2 :: t₂.map Prod.snd)).map
                    (fun cw => valAt cw.1 d / valAt cw.1 d0 * C * cw.2)).sum := by
                intro d
                have := blend_sum_perm env C hperm d d0
                simpa using this
              congr 1
              congr 1
              · exact congrArg (Prod.mk d0) (hsum_eq d0)
              · exact List.map_congr_left (fun d hd => congrArg (Prod.mk d) (hsum_eq d))
    · push_neg at hl
      rcases hl with ⟨st, hst, hnone⟩
      have hnone' : env st = none := Option.not_isSome_iff_eq_none.mp hnone
      rw [loadAll_eq_none ⟨st, hst, hnone'⟩,
        loadAll_eq_none ⟨st, (hperm.map Prod.fst).mem_iff.mp hst, hnone'⟩]


theorem combineCurve_weights_take (env : Env) (s : List Strat) (w₁ w₂ : List ℚ) (C : ℚ)
    (hsum : w₁.sum = w₂.sum)
    (htake : w₁.take s.length = w₂.take s.length)
    (h₁ : s.length ≤ w₁.length) (h₂ : s.length ≤ w₂.length) :
    combineCurve env s w₁ C = combineCurve env s w₂ C := by
  rw [combineCurve, combineCurve, hsum]
  by_cases hw : |w₂.sum - 1| > 1/100
  · rw [if_pos hw, if_pos hw]
  · rw [if_neg hw, if_neg hw]
    cases hload : loadAll env s with
    | none => rfl
    | some cs =>
      cases cs with
      | nil => rfl
      | cons p ps =>
        simp only
        cases hc : commonDates p ps with
        | nil => rfl
        | cons d0 ds =>
          simp only
          rw [if_neg (not_lt.mpr h₁), if_neg (not_lt.mpr h₂)]
          have hcs : (p :: ps).length = s.length := loadAll_length hload
          have hzip : (p :: ps).zip w₁ = (p :: ps).zip w₂ := by
            rw [zip_eq_zip_take (p :: ps) w₁, zip_eq_zip_take (p :: ps) w₂, hcs, htake]
          rw [hzip]

theorem sharpeDescB_total (r₁ r₂ : PortfolioResult) :
    sharpeDescB r₁ r₂ = true ∨ sharpeDescB r₂ r₁ = true := by
  rw [sharpeDescB, sharpeDescB, sharpeLeB_iff, sharpeLeB_iff]
  exact (le_total (sharpeR r₂.metrics) (sharpeR r₁.metrics)).imp id id

theorem sharpeDescB_trans {r₁ r₂ r₃ : PortfolioResult}
    (h₁ : sharpeDescB r₁ r₂ = true) (h₂ : sharpeDescB r₂ r₃ = true) :
    sharpeDescB r₁ r₃ = true := by
  rw [sharpeDescB, sharpeLeB_iff] at h₁ h₂ ⊢
  exact le_trans h₂ h₁

/-- The tie predicate: `r`'s Sharpe ratio equals that of `m₀` (decidably,
via the comparator both ways). -/
def tieB (m₀ : MetricsQ) (r : PortfolioResult) : Bool :=
  sharpeLeB r.metrics m₀ && sharpeLeB m₀ r.metrics

theorem tieB_iff (m₀ : MetricsQ) (r : PortfolioResult) :
    tieB m₀ r = true ↔ sharpeR r.metrics = sharpeR m₀ := by
  rw [tieB, Bool.and_eq_true, sharpeLeB_iff, sharpeLeB_iff]
  constructor
  · rintro ⟨h1, h2⟩; exact le_antisymm h1 h2
  · rintro h; exact ⟨le_of_eq h, ge_of_eq h⟩

theorem tieB_le (m₀ : MetricsQ) {a b : PortfolioResult}
    (ha : tieB m₀ a = true) (hb : tieB m₀ b = true) : sharpeDescB a b = true := by
  rw [sharpeDescB, sharpeLeB_iff]
  rw [tieB_iff] at ha hb
  rw [ha, hb]


theorem sum_map_div (l : List ℚ) (c : ℚ) : (l.map (· / c)).sum = l.sum / c := by
  rw [show (fun x : ℚ => x / c) = (fun x : ℚ => x * c⁻¹) from funext (fun x => div_eq_mul_inv x c)]
  rw [show (fun x : ℚ => x * c⁻¹) = (fun x : ℚ => id x * c⁻¹) from rfl,
    List.sum_map_mul_right, List.map_id, div_eq_mul_inv]

/-- Shared helper: under the tolerance check, with every strategy present,
a nonempty date intersection and at least as many weights as strategies,
`combineCurve` succeeds and the blended curve's first value is
`(sum of the first n weights) * initial capital`, provided no curve's
value at the first common date is 0. -/
theorem combineCurve_first_value (env : Env) (s0 : Strat) (srest : List Strat)
    (w : List ℚ) (C : ℚ)
    (hsum : ¬ |w.sum - 1| > 1/100)
    (hload : ∀ st ∈ s0 :: srest, (env st).isSome)
    (hlen : (s0 :: srest).length ≤ w.length)
    (hcommon : commonDates ((env s0).getD []) (loadedList env srest) ≠ [])
    (hnz : ∀ st ∈ s0 :: srest, valAt ((env st).getD [])
      ((commonDates ((env s0).getD []) (loadedList env srest)).headD 0) ≠ 0) :
    ∃ curve, combineCurve env (s0 :: srest) w C = .ok curve ∧
      (curve.map Prod.snd).headD 0 = (w.take (s0 :: srest).length).sum * C := by
  refine ⟨_, combineCurve_ok_shape hsum hload hlen hcommon, ?_⟩
  cases hc : commonDates ((env s0).getD []) (loadedList env srest) with
  | nil => exact absurd hc hcommon
  | cons d0 ds =>
    have hd0 : (commonDates ((env s0).getD []) (loadedList env srest)).headD 0 = d0 := by
      rw [hc]; rfl
    simp only [List.headD_cons, List.map_cons]
    have hnz' : ∀ c ∈ (env s0).getD [] :: loadedList env srest, valAt c d0 ≠ 0 := by
      intro c hc'
      rcases List.mem_cons.mp hc' with rfl | hc''
      · have := hnz s0 (List.mem_cons_self _ _); rwa [hd0] at this
      · rw [loadedList] at hc''
        rcases List.mem_map.mp hc'' with ⟨st, hst, rfl⟩
        have := hnz st (List.mem_cons_of_mem _ hst); rwa [hd0] at this
    rw [blend_head_value _ _ _ _ hnz']
    congr 2
    simp [loadedList]

/-- C6: for two strategies and weight step 1.0, the grid tuples kept by the
≈1.0-sum filter (before renormalization) are exactly (0, 1) and (1, 0). -/
theorem claim_C6_grid_step_one : rawCandidates 2 1 = [[0, 1], [1, 0]] := by
  have h : weight_range 1 = [0, 1] := by norm_num [weight_range, arangeQ]; rfl
  rw [rawCandidates, h]
  norm_num [tuples, List.filter_cons]

/-- C10: every raw tuple kept by the optimizer's filter sums to within 0.01
of 1, hence has a strictly positive sum, so the renormalizing division is
well-defined; every renormalized candidate sums to exactly 1 and is never
rejected by the combiner's weight-sum check. -/
theorem claim_C10_renormalization_safe (n : Nat) (step : ℚ) :
    (∀ w ∈ rawCandidates n step, |w.sum - 1| < 1/100 ∧ 0 < w.sum) ∧
    (∀ w ∈ weight_combinations n step, w.sum = 1 ∧
      ∀ (env : Env) (s : List Strat) (C : ℚ),
        combineCurve env s w C ≠ .error .invalidWeights) := by
  have hraw : ∀ w ∈ rawCandidates n step, |w.sum - 1| < 1/100 ∧ 0 < w.sum := by
    intro w hw
    have h1 : |w.sum - 1| < 1/100 := by
      have := (List.mem_filter.mp hw).2
      exact of_decide_eq_true this
    refine ⟨h1, ?_⟩
    have := abs_lt.mp h1
    linarith [this.1]
  refine ⟨hraw, ?_⟩
  intro w hw
  rw [weight_combinations] at hw
  rcases List.mem_map.mp hw with ⟨w₀, hw₀, rfl⟩
  have hpos := (hraw w₀ hw₀).2
  have hsum1 : (w₀.map (· / w₀.sum)).sum = 1 := by
    rw [sum_map_div, div_self (ne_of_gt hpos)]
  refine ⟨hsum1, ?_⟩
  intro env s C
  apply combineCurve_ne_invalidWeights
  rw [hsum1]
  norm_num

/-- C10 witness at n = 2, step = 1, tuple (0, 1). -/
theorem claim_C10_witness :
    (|([0, 1] : List ℚ).sum - 1| < 1/100 ∧ 0 < ([0, 1] : List ℚ).sum) ∧
    (([0, 1] : List ℚ).sum = 1 ∧
      combineCurve (fun _ => none) [("A", "x")] [0, 1] 20000 ≠
        .error .invalidWeights) := by
  have h6 : rawCandidates 2 1 = [[0, 1], [1, 0]] := by
    have h : weight_range 1 = [0, 1] := by norm_num [weight_range, arangeQ]; rfl
    rw [rawCandidates, h]
    norm_num [tuples, List.filter_cons]
  have hmemraw : ([0, 1] : List ℚ) ∈ rawCandidates 2 1 := by rw [h6]; simp
  have hmemw : ([0, 1] : List ℚ) ∈ weight_combinations 2 1 := by
    rw [weight_combinations]
    refine List.mem_map.mpr ⟨[0, 1], hmemraw, ?_⟩
    norm_num
  have h := claim_C10_renormalization_safe 2 1
  exact ⟨h.1 [0, 1] hmemraw,
    (h.2 [0, 1] hmemw).1,
    (h.2 [0, 1] hmemw).2 (fun _ => none) [("A", "x")] 20000⟩


/-- C5: the combiner returns the `InvalidWeights` failure — for every
environment, hence before any curve is consulted — exactly when the weight
sum misses 1.0 by more than 0.01; and an accepted weight vector is used as
given, never renormalized: the blended curve's first value is
`(sum of weights) * initial_capital` (so a 0.99 sum scales the blend by
0.99, as the spec notes).  The nonzero-first-value hypothesis excludes the
degenerate curves for which the Python division would produce NaN/inf. -/
theorem claim_C5_weight_tolerance :
    (∀ (env : Env) (s : List Strat) (w : List ℚ) (C : ℚ),
      combineCurve env s w C = .error .invalidWeights ↔ |w.sum - 1| > 1/100) ∧
    (∀ (env : Env) (s0 : Strat) (srest : List Strat) (w : List ℚ) (C : ℚ),
      ¬ |w.sum - 1| > 1/100 →
      (∀ st ∈ s0 :: srest, (env st).isSome) →
      w.length = (s0 :: srest).length →
      commonDates ((env s0).getD []) (loadedList env srest) ≠ [] →
      (∀ st ∈ s0 :: srest, valAt ((env st).getD [])
        ((commonDates ((env s0).getD []) (loadedList env srest)).headD 0) ≠ 0) →
      ∃ curve, combineCurve env (s0 :: srest) w C = .ok curve ∧
        (curve.map Prod.snd).headD 0 = w.sum * C) := by
  constructor
  · intro env s w C
    constructor
    · intro h
      by_contra hc
      exact combineCurve_ne_invalidWeights hc h
    · intro h
      rw [combineCurve, if_pos h]
  · intro env s0 srest w C hsum hload hlen hcommon hnz
    obtain ⟨curve, hok, hhead⟩ :=
      combineCurve_first_value env s0 srest w C hsum hload (le_of_eq hlen.symm) hcommon hnz
    refine ⟨curve, hok, ?_⟩
    rw [hhead, ← hlen, List.take_length]

/-- A two-strategy environment for the C5 witness. -/
def envTwo : Env := fun st =>
  if st = ("A", "a") then some [(0, 100), (1, 110)]
  else if st = ("B", "b") then some [(0, 200), (1, 220)]
  else none

/-- C5 witness: weights summing to 0.99 pass the check and scale the blend
by 0.99 (first value 19800 instead of 20000). -/
theorem claim_C5_witness :
    ∃ curve, combineCurve envTwo [("A", "a"), ("B", "b")] [49/100, 1/2] 20000 = .ok curve ∧
      (curve.map Prod.snd).headD 0 = ([49/100, 1/2] : List ℚ).sum * 20000 :=
  claim_C5_weight_tolerance.2 envTwo ("A", "a") [("B", "b")] [49/100, 1/2] 20000
    (by norm_num [abs_le])
    (by simp [envTwo])
    (by norm_num)
    (by simp [commonDates, curveDates, loadedList, envTwo])
    (by simp [commonDates, curveDates, loadedList, valAt, envTwo])

/-- The environment of the C1 counterexample: a single strategy whose curve
has value 0 at its only date. -/
def envZero : Env := fun st => if st = ("A", "x") then some [(0, 0)] else none

/-- C1 counterexample: the strategies share the common date 0 and the
weights sum to exactly 1, yet the blended curve's first value is 0, not the
initial capital 20000: rebasing divides by the curve's first value, which
is 0 here.  (The Python float semantics produce NaN at this input —
likewise not equal to the initial capital within any tolerance.) -/
theorem claim_C1_counterexample :
    combineCurve envZero [("A", "x")] [1] 20000 = .ok [(0, 0)] ∧ (0 : ℚ) ≠ 20000 := by
  constructor
  · norm_num [combineCurve, loadAll, commonDates, curveDates, valAt, envZero]
  · norm_num

/-- C1 as amended: with every curve's value at the first common date
nonzero, a weight vector of matching length summing to exactly 1 yields a
blended curve whose first value equals the initial capital exactly. -/
theorem claim_C1_first_value (env : Env) (s0 : Strat) (srest : List Strat)
    (w : List ℚ) (C : ℚ)
    (hsum : w.sum = 1)
    (hlen : w.length = (s0 :: srest).length)
    (hload : ∀ st ∈ s0 :: srest, (env st).isSome)
    (hcommon : commonDates ((env s0).getD []) (loadedList env srest) ≠ [])
    (hnz : ∀ st ∈ s0 :: srest, valAt ((env st).getD [])
      ((commonDates ((env s0).getD []) (loadedList env srest)).headD 0) ≠ 0) :
    ∃ curve, combineCurve env (s0 :: srest) w C = .ok curve ∧
      (curve.map Prod.snd).headD 0 = C := by
  have hsum' : ¬ |w.sum - 1| > 1/100 := by rw [hsum]; norm_num
  obtain ⟨curve, hok, hhead⟩ :=
    combineCurve_first_value env s0 srest w C hsum' hload (le_of_eq hlen.symm) hcommon hnz
  refine ⟨curve, hok, ?_⟩
  rw [hhead, ← hlen, List.take_length, hsum, one_mul]

/-- A one-strategy environment used by the C1/C9/C3 witnesses. -/
def envOne : Env :=
  fun st => if st = ("A", "agg") then some [(0, 100), (1, 110), (2, 121)] else none

/-- C1 witness: with a positive curve the blended first value is exactly
the initial capital. -/
theorem claim_C1_witness :
    ∃ curve, combineCurve envOne [("A", "agg")] [1] 20000 = .ok curve ∧
      (curve.map Prod.snd).headD 0 = 20000 :=
  claim_C1_first_value envOne ("A", "agg") [] [1] 20000
    (by norm_num)
    (by norm_num)
    (by norm_num [envOne])
    (by simp [commonDates, curveDates, loadedList, envOne])
    (by simp [commonDates, curveDates, loadedList, valAt, envOne])

/-- C9 counterexample: one strategy but two weights — a count mismatch.
`combine_portfolios` raises no error at all: it loads the curve and
silently evaluates only the weight prefix `[1/2]`, blending at half scale
(first value 10000, not 20000). -/
theorem claim_C9_counterexample :
    combineCurve envOne [("A", "agg")] [1/2, 1/2] 20000 =
      .ok [(0, 10000), (1, 11000), (2, 12100)] := by
  norm_num [combineCurve, loadAll, commonDates, curveDates, valAt, envOne]

/-- C9 as amended: the count check lives only in `main`'s custom-weights
path, which rejects a mismatch before calling the combiner; inside
`combine_portfolios` there is no check — beyond the weight sum, only the
first `n` weights influence the result (a longer vector is silently
truncated), and a shorter vector fails with the Python IndexError only
after every curve has been loaded. -/
theorem claim_C9_length_mismatch :
    (∀ (env : Env) (s : List Strat) (w : List ℚ) (C : ℚ), w.length ≠ s.length →
      main_custom_weights env s w C = .error .lengthMismatch) ∧
    (∀ (env : Env) (s : List Strat) (w₁ w₂ : List ℚ) (C : ℚ),
      w₁.sum = w₂.sum → w₁.take s.length = w₂.take s.length →
      s.length ≤ w₁.length → s.length ≤ w₂.length →
      combineCurve env s w₁ C = combineCurve env s w₂ C) ∧
    (∀ (env : Env) (s0 : Strat) (srest : List Strat) (w : List ℚ) (C : ℚ),
      ¬ |w.sum - 1| > 1/100 →
      (∀ st ∈ s0 :: srest, (env st).isSome) →
      commonDates ((env s0).getD []) (loadedList env srest) ≠ [] →
      w.length < (s0 :: srest).length →
      combineCurve env (s0 :: srest) w C = .error .indexError) := by
  refine ⟨?_, ?_, ?_⟩
  · intro env s w C h
    rw [main_custom_weights, if_pos h]
  · intro env s w₁ w₂ C hsum htake h₁ h₂
    exact combineCurve_weights_take env s w₁ w₂ C hsum htake h₁ h₂
  · intro env s0 srest w C hsum hload hcommon hlt
    rw [combineCurve, if_neg hsum, loadAll_eq_some hload]
    simp only [loadedList, List.map_cons]
    cases hc : commonDates ((env s0).getD [])
        (List.map (fun st => (env st).getD []) srest) with
    | nil => exact absurd hc (by simpa [loadedList] using hcommon)
    | cons d0 ds =>
      simp only
      rw [if_pos (by simpa using hlt)]

/-- C9 witness: the CLI gate rejects the mismatch, and the combiner's
result depends only on the weight prefix and the total sum. -/
theorem claim_C9_witness :
    main_custom_weights envOne [("A", "agg")] [1/2, 1/2] 20000 =
      .error .lengthMismatch ∧
    combineCurve envOne [("A", "agg")] [1/2, 1/2] 20000 =
      combineCurve envOne [("A", "agg")] [1/2, 3/8, 1/8] 20000 :=
  ⟨claim_C9_length_mismatch.1 envOne [("A", "agg")] [1/2, 1/2] 20000 (by norm_num),
   claim_C9_length_mismatch.2.1 envOne [("A", "agg")] [1/2, 1/2] [1/2, 3/8, 1/8] 20000
     (by norm_num) (by norm_num) (by norm_num) (by norm_num)⟩


/-- C4: for a non-empty curve whose consecutive values are all equal (in
particular a curve of length 1), the Sharpe ratio is exactly 0 — the code
falls into the zero-volatility branch, so the value is 0, not an infinity
or NaN (which cannot arise in this real-valued model at all). -/
theorem claim_C4_flat_sharpe_zero (v : List ℚ) (C : ℚ) (hne : v ≠ [])
    (hflat : List.Chain' (· = ·) v) :
    ∃ m, calculate_portfolio_metrics v C = some m ∧ sharpeR m = 0 := by
  have hv : ¬ v.isEmpty = true := by
    cases v with
    | nil => exact absurd rfl hne
    | cons x xs => simp
  rw [calculate_portfolio_metrics, if_neg hv]
  refine ⟨_, rfl, ?_⟩
  apply sharpeR_of_nonpos
  simp only
  rw [sampleVar_of_all_zero (dailyReturns_flat hflat)]

/-- C4 witness at the flat curve [7, 7] (and the length-1 case is covered
by the same theorem, its flatness hypothesis being vacuous there). -/
theorem claim_C4_witness :
    ∃ m, calculate_portfolio_metrics [7, 7] 100 = some m ∧ sharpeR m = 0 :=
  claim_C4_flat_sharpe_zero [7, 7] 100 (by simp) (by simp)

/-- C8: the code's `max_drawdown` — min over the zip of the curve with its
`cummax` — is the minimum over all indices of
`(value - running peak) / running peak * 100`, the running peak being the
maximum of the first `i + 1` values; and it is 0 for a curve of length 1. -/
theorem claim_C8_max_drawdown (v : List ℚ) (C : ℚ) (hne : v ≠ []) :
    ∃ m, calculate_portfolio_metrics v C = some m ∧
      (∀ i, i < v.length → m.max_drawdown ≤ ddAt v i) ∧
      (∃ i, i < v.length ∧ m.max_drawdown = ddAt v i) ∧
      (v.length = 1 → m.max_drawdown = 0) := by
  have hv : ¬ v.isEmpty = true := by
    cases v with
    | nil => exact absurd rfl hne
    | cons x xs => simp
  rw [calculate_portfolio_metrics, if_neg hv]
  refine ⟨_, rfl, ?_, ?_, ?_⟩
  all_goals simp only
  · intro i hi
    obtain ⟨a, ha⟩ := min?_isSome_of_ne_nil (l := drawdowns v) (by
      intro hnil
      have := drawdowns_length v
      rw [hnil] at this
      cases v with
      | nil => exact absurd rfl hne
      | cons x xs => simp at this)
    rw [ha, Option.getD_some]
    have hspec := min?_spec ha
    have hdd : ddAt v i ∈ drawdowns v := by
      rw [← drawdowns_getD v i hi]
      have hi' : i < (drawdowns v).length := by rw [drawdowns_length]; exact hi
      rw [List.getD_eq_getElem _ _ hi']
      exact List.getElem_mem hi'
    exact hspec.2 _ hdd
  · obtain ⟨a, ha⟩ := min?_isSome_of_ne_nil (l := drawdowns v) (by
      intro hnil
      have := drawdowns_length v
      rw [hnil] at this
      cases v with
      | nil => exact absurd rfl hne
      | cons x xs => simp at this)
    rw [ha, Option.getD_some]
    have hspec := min?_spec ha
    obtain ⟨i, hi, hgi⟩ := List.mem_iff_getElem.mp hspec.1
    have hi' : i < v.length := by rwa [drawdowns_length] at hi
    refine ⟨i, hi', ?_⟩
    rw [← drawdowns_getD v i hi', List.getD_eq_getElem _ _ hi, hgi]
  · intro h1
    obtain ⟨x, rfl⟩ := List.length_eq_one.mp h1
    simp [drawdowns, cummax, cummaxFrom, List.min?, sub_self]

/-- C8 witness at the curve [100, 110, 120, 90] (drawdown -25 at the last
point). -/
theorem claim_C8_witness :
    ∃ m, calculate_portfolio_metrics [100, 110, 120, 90] 100 = some m ∧
      (∀ i, i < ([100, 110, 120, 90] : List ℚ).length → m.max_drawdown ≤ ddAt [100, 110, 120, 90] i) ∧
      (∃ i, i < ([100, 110, 120, 90] : List ℚ).length ∧ m.max_drawdown = ddAt [100, 110, 120, 90] i) ∧
      (([100, 110, 120, 90] : List ℚ).length = 1 → m.max_drawdown = 0) :=
  claim_C8_max_drawdown [100, 110, 120, 90] 100 (by simp)


/-- The six metrics of the returned record, as one tuple (the rational
fields plus the three sqrt-valued ones). -/
noncomputable def metricsSix (r : PortfolioResult) : ℚ × ℚ × ℝ × ℚ × ℝ × ℝ :=
  (r.metrics.final_value, r.metrics.total_return, std_devR r.metrics,
    r.metrics.max_drawdown, sharpeR r.metrics, volatilityR r.metrics)

/-- C7: permuting the strategies together with their weights leaves every
one of the six performance metrics unchanged (the whole `Except` outcome,
errors included, agrees).  The strictly-ascending-dates hypothesis is the
spec's EquityCurve invariant; it makes the pandas date intersection
order-independent. -/
theorem claim_C7_permutation_invariance (env : Env) (C : ℚ)
    (p₁ p₂ : List (Strat × ℚ)) (hperm : p₁.Perm p₂)
    (hsorted : ∀ q ∈ p₁,
      List.Chain' (fun u v : Nat × ℚ => u.1 < v.1) ((env q.1).getD [])) :
    (combine_portfolios env (p₁.map Prod.fst) (p₁.map Prod.snd) C).map metricsSix =
      (combine_portfolios env (p₂.map Prod.fst) (p₂.map Prod.snd) C).map metricsSix := by
  have hcv := combineCurve_perm env C hperm hsorted
  unfold combine_portfolios
  rw [hcv]
  cases combineCurve env (p₂.map Prod.fst) (p₂.map Prod.snd) C with
  | error e => rfl
  | ok curve =>
    simp only
    cases hm : calculate_portfolio_metrics (curve.map Prod.snd) C with
    | none => simp only [hm]
    | some m => simp only [hm]; rfl

/-- C7 witness: two strategies with weights 0.6/0.4, swapped. -/
theorem claim_C7_witness :
    (combine_portfolios envTwo
        ([(("A", "a"), (3/5 : ℚ)), (("B", "b"), (2/5 : ℚ))].map Prod.fst)
        ([(("A", "a"), (3/5 : ℚ)), (("B", "b"), (2/5 : ℚ))].map Prod.snd) 20000).map metricsSix =
      (combine_portfolios envTwo
        ([(("B", "b"), (2/5 : ℚ)), (("A", "a"), (3/5 : ℚ))].map Prod.fst)
        ([(("B", "b"), (2/5 : ℚ)), (("A", "a"), (3/5 : ℚ))].map Prod.snd) 20000).map metricsSix :=
  claim_C7_permutation_invariance envTwo 20000 _ _
    (List.Perm.swap _ _ _)
    (by
      intro q hq
      rcases List.mem_cons.mp hq with rfl | hq'
      · simp [envTwo]
      · rcases List.mem_cons.mp hq' with rfl | hq''
        · simp [envTwo]
        · simp at hq'')


/-- C2: the optimizer's output is non-increasing in Sharpe ratio for every
adjacent pair; equal-Sharpe results keep their enumeration order (the
filtered tie class of any Sharpe value is an order-preserving sublist of
the pre-sort sweep results); the tie predicate means exactly equality of
the real Sharpe ratios; and at most `top_n` entries are returned. -/
theorem claim_C2_sorted_stable_truncated (env : Env) (s : List Strat)
    (C step : ℚ) (top_n : Nat) :
    List.Chain' (fun a b => sharpeR b.metrics ≤ sharpeR a.metrics)
        (optimize_portfolio env s C step top_n) ∧
    (∀ m₀ : MetricsQ,
      ((optimize_portfolio env s C step top_n).filter (tieB m₀)).Sublist
        ((optimize_results env s C step).filter (tieB m₀))) ∧
    (∀ (m₀ : MetricsQ) (r : PortfolioResult),
      tieB m₀ r = true ↔ sharpeR r.metrics = sharpeR m₀) ∧
    (optimize_portfolio env s C step top_n).length ≤ top_n := by
  refine ⟨?_, ?_, fun m₀ r => tieB_iff m₀ r, ?_⟩
  · have hch : List.Chain' (fun a b => sharpeDescB a b = true)
        (sortD sharpeDescB (optimize_results env s C step)) :=
      sortD_chain' sharpeDescB sharpeDescB_total _
    rw [optimize_portfolio]
    exact (hch.take top_n).imp (fun {a b} h => by
      rw [sharpeDescB, sharpeLeB_iff] at h; exact h)
  · intro m₀
    rw [optimize_portfolio]
    have hst : (sortD sharpeDescB (optimize_results env s C step)).filter (tieB m₀) =
        (optimize_results env s C step).filter (tieB m₀) :=
      sortD_filter sharpeDescB (tieB m₀) (fun a b ha hb => tieB_le m₀ ha hb)
        (optimize_results env s C step)
    exact hst ▸ List.Sublist.filter _ (List.take_sublist _ _)
  · rw [optimize_portfolio]
    rw [List.length_take]
    exact min_le_left _ _

/-- The single successful result of the C3 witness run. -/
def rC3 : PortfolioResult :=
  ⟨⟨24200, 21, 0, 0⟩, [("A", "agg")], [1], [(0, 20000), (1, 22000), (2, 24200)]⟩


theorem loadAllFs_restriction (env : FsEnv) (l : List Strat)
    (h : ∀ st ∈ l, env st ≠ .malformed) :
    (loadAllFs env l = .error .notFound ∧ loadAll (toOptionEnv env) l = none) ∨
    (∃ cs, loadAllFs env l = .ok cs ∧ loadAll (toOptionEnv env) l = some cs) := by
  induction l with
  | nil => exact Or.inr ⟨[], rfl, rfl⟩
  | cons s rest ih =>
    have hs := h s (List.mem_cons_self s rest)
    rw [loadAllFs, loadAll]
    cases hevs : env s with
    | missing => exact Or.inl ⟨rfl, by rw [toOptionEnv, hevs]⟩
    | malformed => exact absurd hevs hs
    | table c =>
      rw [show toOptionEnv env s = some c by rw [toOptionEnv, hevs]]
      rcases ih (fun st hst => h st (List.mem_cons_of_mem s hst)) with ⟨h1, h2⟩ | ⟨cs, h1, h2⟩
      · exact Or.inl ⟨by rw [h1]; rfl, by rw [h2]; rfl⟩
      · exact Or.inr ⟨c :: cs, by rw [h1]; rfl, by rw [h2]; rfl⟩

/-- On a storage with no malformed artifact the full model and the
optional-curve model agree: `Env` is an exact restriction of `FsEnv`. -/
theorem combineCurveFs_restriction (env : FsEnv) (s : List Strat) (w : List ℚ) (C : ℚ)
    (h : ∀ st ∈ s, env st ≠ .malformed) :
    combineCurveFs env s w C = combineCurve (toOptionEnv env) s w C := by
  rw [combineCurveFs, combineCurve]
  by_cases hw : |w.sum - 1| > 1/100
  · rw [if_pos hw, if_pos hw]
  · rw [if_neg hw, if_neg hw]
    rcases loadAllFs_restriction env s h with ⟨h1, h2⟩ | ⟨cs, h1, h2⟩
    · rw [h1, h2]
    · rw [h1, h2]
      cases cs <;> rfl

theorem combine_portfoliosFs_ok_fields {env : FsEnv} {s : List Strat} {w : List ℚ}
    {C : ℚ} {r : PortfolioResult}
    (h : combine_portfoliosFs env s w C = .ok r) :
    r.strategies = s ∧ r.weights = w := by
  unfold combine_portfoliosFs at h
  split at h
  · cases h
  · split at h
    · cases h
    · cases h
      exact ⟨rfl, rfl⟩

theorem sweepGo_ok_spec {env : FsEnv} {s : List Strat} {C : ℚ} :
    ∀ {cands : List (List ℚ)} {res : List PortfolioResult},
      sweepGo env s C cands = .ok res →
      res.length = cands.countP
          (fun w => (combine_portfoliosFs env s w C).toOption.isSome) ∧
      ∀ r ∈ res, ∃ w ∈ cands, combine_portfoliosFs env s w C = .ok r := by
  intro cands
  induction cands with
  | nil =>
    intro res h
    rw [sweepGo] at h
    cases h
    exact ⟨rfl, by simp⟩
  | cons w rest ih =>
    intro res h
    rw [sweepGo] at h
    rw [List.countP_cons]
    cases hcp : combine_portfoliosFs env s w C with
    | ok m =>
      rw [hcp] at h
      cases hrest : sweepGo env s C rest with
      | error e => rw [hrest] at h; cases h
      | ok res' =>
        rw [hrest] at h
        cases h
        obtain ⟨hlen, hmem⟩ := ih hrest
        constructor
        · simp [hcp, Except.toOption, hlen]
        · intro r hr
          rcases List.mem_cons.mp hr with rfl | hr'
          · exact ⟨w, List.mem_cons_self _ _, hcp⟩
          · obtain ⟨w', hw', hok'⟩ := hmem r hr'
            exact ⟨w', List.mem_cons_of_mem _ hw', hok'⟩
    | error e =>
      rw [hcp] at h
      dsimp only at h
      by_cases ha : e.aborts = true
      · rw [if_pos ha] at h; cases h
      · rw [if_neg ha] at h
        obtain ⟨hlen, hmem⟩ := ih h
        constructor
        · simp [hcp, Except.toOption, hlen]
        · intro r hr
          obtain ⟨w', hw', hok'⟩ := hmem r hr
          exact ⟨w', List.mem_cons_of_mem _ hw', hok'⟩

theorem sweepGo_completes {env : FsEnv} {s : List Strat} {C : ℚ}
    {cands : List (List ℚ)}
    (h : ∀ w ∈ cands, ∀ e, combine_portfoliosFs env s w C = .error e →
      e.aborts = false) :
    ∃ res, sweepGo env s C cands = .ok res := by
  induction cands with
  | nil => exact ⟨[], rfl⟩
  | cons w rest ih =>
    obtain ⟨res, hres⟩ := ih (fun w' hw' => h w' (List.mem_cons_of_mem _ hw'))
    rw [sweepGo]
    cases hcp : combine_portfoliosFs env s w C with
    | ok m => exact ⟨m :: res, by dsimp only; rw [hres]; rfl⟩
    | error e =>
      have := h w (List.mem_cons_self _ _) e hcp
      dsimp only
      rw [if_neg (by rw [this]; exact Bool.false_ne_true)]
      exact ⟨res, hres⟩

theorem sweepGo_aborts {env : FsEnv} {s : List Strat} {C : ℚ}
    {cands : List (List ℚ)}
    (h : ∃ w ∈ cands, ∃ e, combine_portfoliosFs env s w C = .error e ∧
      e.aborts = true) :
    ∃ e, sweepGo env s C cands = .error e ∧ e.aborts = true := by
  induction cands with
  | nil => simp at h
  | cons w rest ih =>
    rw [sweepGo]
    rcases h with ⟨w', hw', e', he', ha'⟩
    rcases List.mem_cons.mp hw' with rfl | hw''
    · rw [he']
      dsimp only
      rw [if_pos ha']
      exact ⟨e', rfl, ha'⟩
    · cases hcp : combine_portfoliosFs env s w C with
      | ok m =>
        obtain ⟨e, he, ha⟩ := ih ⟨w', hw'', e', he', ha'⟩
        dsimp only
        rw [he]
        exact ⟨e, rfl, ha⟩
      | error e =>
        dsimp only
        by_cases hab : e.aborts = true
        · rw [if_pos hab]
          exact ⟨e, rfl, hab⟩
        · rw [if_neg hab]
          exact ih ⟨w', hw'', e', he', ha'⟩

/-- A storage in which the strategy's history file exists but cannot be
parsed. -/
def envMalformedA : FsEnv := fun _ => .malformed

/-- A storage in which the strategy's history file does not exist. -/
def envMissingA : FsEnv := fun _ => .missing

/-- C3 counterexample: the claim groups Malformed with the failures that
drop only their candidate, but a malformed artifact raises an uncaught
exception (`pd.read_csv` / `df['Date']` / column access; neither
`combine_portfolios` nor the sweep has a try/except), so the whole sweep
aborts and returns no ranking at all — whereas a missing artifact
(NotFound) is indeed only dropped, leaving an empty ranking. -/
theorem claim_C3_counterexample :
    optimize_portfolioFs envMalformedA [("A", "agg")] 20000 1 10 =
      .error .malformed ∧
    optimize_portfolioFs envMissingA [("A", "agg")] 20000 1 10 = .ok [] := by
  have hwr : weight_range 1 = [0, 1] := by norm_num [weight_range, arangeQ]; rfl
  have hwc : weight_combinations 1 1 = [[1]] := by
    rw [weight_combinations, rawCandidates, hwr]
    norm_num [tuples, List.filter_cons]
  constructor
  · have hcc : combineCurveFs envMalformedA [("A", "agg")] [1] 20000 =
        .error .malformed := by
      norm_num [combineCurveFs, loadAllFs, envMalformedA]
    have hcp : combine_portfoliosFs envMalformedA [("A", "agg")] [1] 20000 =
        .error .malformed := by
      unfold combine_portfoliosFs
      rw [hcc]
    rw [optimize_portfolioFs, optimize_sweep]
    simp only [List.length_cons, List.length_nil]
    rw [hwc, sweepGo, hcp]
    rfl
  · have hcc : combineCurveFs envMissingA [("A", "agg")] [1] 20000 =
        .error .notFound := by
      norm_num [combineCurveFs, loadAllFs, envMissingA]
    have hcp : combine_portfoliosFs envMissingA [("A", "agg")] [1] 20000 =
        .error .notFound := by
      unfold combine_portfoliosFs
      rw [hcc]
    rw [optimize_portfolioFs, optimize_sweep]
    simp only [List.length_cons, List.length_nil]
    rw [hwc, sweepGo, hcp]
    rfl

/-- C3 as amended: failures that `combine_portfolios` signals by
returning None (NotFound, NoCommonDates, InvalidWeights, empty blended
curve) drop only their own candidate: whenever the sweep completes, its
result count is the number of succeeding candidates and every ranked
entry is the genuine ok result of the weight vector it carries (never a
default or zero-scored one), and it does complete whenever no candidate
raises.  But an uncaught exception — a Malformed artifact, or the
IndexError of a short weight vector — aborts the entire sweep: the run
ends with that exception and produces no ranking. -/
theorem claim_C3_failures_dropped (env : FsEnv) (s : List Strat)
    (C step : ℚ) (top_n : Nat) :
    (∀ res, optimize_sweep env s C step = .ok res →
      res.length = (weight_combinations s.length step).countP
          (fun w => (combine_portfoliosFs env s w C).toOption.isSome) ∧
      optimize_portfolioFs env s C step top_n =
        .ok ((sortD sharpeDescB res).take top_n) ∧
      ∀ r ∈ (sortD sharpeDescB res).take top_n,
        combine_portfoliosFs env s r.weights C = .ok r) ∧
    ((∀ w ∈ weight_combinations s.length step, ∀ e,
        combine_portfoliosFs env s w C = .error e → e.aborts = false) →
      ∃ ranked, optimize_portfolioFs env s C step top_n = .ok ranked) ∧
    ((∃ w ∈ weight_combinations s.length step, ∃ e,
        combine_portfoliosFs env s w C = .error e ∧ e.aborts = true) →
      ∃ e, optimize_portfolioFs env s C step top_n = .error e ∧
        e.aborts = true) := by
  refine ⟨?_, ?_, ?_⟩
  · intro res hres
    obtain ⟨hlen, hmem⟩ := sweepGo_ok_spec hres
    refine ⟨hlen, ?_, ?_⟩
    · rw [optimize_portfolioFs, hres]
      rfl
    · intro r hr
      have hr1 : r ∈ sortD sharpeDescB res := List.mem_of_mem_take hr
      have hr2 : r ∈ res := (sortD_perm _ _).mem_iff.mp hr1
      obtain ⟨w, hw, hok⟩ := hmem r hr2
      rw [(combine_portfoliosFs_ok_fields hok).2]
      exact hok
  · intro h
    obtain ⟨res, hres⟩ := sweepGo_completes h
    exact ⟨_, by rw [optimize_portfolioFs, optimize_sweep, hres]; rfl⟩
  · intro h
    obtain ⟨e, he, ha⟩ := sweepGo_aborts h
    refine ⟨e, ?_, ha⟩
    rw [optimize_portfolioFs, optimize_sweep, he]
    rfl

/-- The storage of the C3 witness: one well-formed strategy. -/
def envOneFs : FsEnv :=
  fun st => if st = ("A", "agg") then .table [(0, 100), (1, 110), (2, 121)]
  else .missing

/-- C3 witness: a one-strategy sweep at step 1 completes with exactly one
ranked entry, which is the ok result of its own weight vector. -/
theorem claim_C3_witness :
    optimize_portfolioFs envOneFs [("A", "agg")] 20000 1 10 = .ok [rC3] ∧
    combine_portfoliosFs envOneFs [("A", "agg")] rC3.weights 20000 = .ok rC3 := by
  have hwr : weight_range 1 = [0, 1] := by norm_num [weight_range, arangeQ]; rfl
  have hwc : weight_combinations 1 1 = [[1]] := by
    rw [weight_combinations, rawCandidates, hwr]
    norm_num [tuples, List.filter_cons]
  have henv : toOptionEnv envOneFs = envOne := by
    funext st
    by_cases h : st = ("A", "agg") <;> simp [toOptionEnv, envOneFs, envOne, h]
  have hcv : combineCurveFs envOneFs [("A", "agg")] [1] 20000 =
      .ok [(0, 20000), (1, 22000), (2, 24200)] := by
    rw [combineCurveFs_restriction envOneFs _ _ _ (by
        intro st hst
        rcases List.mem_cons.mp hst with rfl | h
        · simp [envOneFs]
        · simp at h),
      henv]
    norm_num [combineCurve, loadAll, commonDates, curveDates, valAt, envOne]
  have hcm : calculate_portfolio_metrics [20000, 22000, 24200] 20000 =
      some ⟨24200, 21, 0, 0⟩ := by
    norm_num [calculate_portfolio_metrics, sampleVar, dailyReturns, drawdowns, cummax,
      cummaxFrom, List.min?]
  have hcp : combine_portfoliosFs envOneFs [("A", "agg")] [1] 20000 = .ok rC3 := by
    unfold combine_portfoliosFs
    rw [hcv]
    simp only [List.map_cons, List.map_nil]
    rw [hcm]
    rfl
  have hsweep : optimize_sweep envOneFs [("A", "agg")] 20000 1 = .ok [rC3] := by
    rw [optimize_sweep]
    simp only [List.length_cons, List.length_nil]
    rw [hwc, sweepGo, hcp]
    rfl
  have hpart :=
    (claim_C3_failures_dropped envOneFs [("A", "agg")] 20000 1 10).1 [rC3] hsweep
  have hsort : (sortD sharpeDescB [rC3]).take 10 = [rC3] := by
    simp [sortD, insertD]
  refine ⟨?_, ?_⟩
  · rw [hpart.2.1, hsort]
  · exact hpart.2.2 rC3 (by rw [hsort]; simp)

end PortfolioOpt
